import Mathlib

/-!
# Verification of the kraft-update-hub core (`src/app.py`)

A shallow embedding of the version-managing core of `app.py`:

* the version comparator (`packaging.version`, restricted to plain dotted
  release versions — pre-release/build suffixes are out of scope, as §8 of
  the design document allows),
* the remote catalog client `list_versions_online`,
* the local installation registry `get_installed_version` /
  `get_previous_version`,
* the artifact fetcher `download_zip` / `extract_zip`,
* the hot-swap loader `force_reload` / `load_module` acting on an explicit
  interpreter state (`sys.modules`, `sys.path`),
* the lifecycle endpoints `check_update` and the update/rollback branches of
  `index`.

Filesystem listings are `Option (List DirEntry)` (`none` = the storage root
does not exist); python exceptions of a modelled operation are represented by
`Option`/explicit outcome constructors.
-/

namespace KraftUpdateHub

/-! ## Version parsing and comparison

Model of `packaging.version.parse` restricted to plain dotted numeric release
versions (`"1.0.0"`, `"10.2"` …).  A version is the list of its numeric
segments; a string with any non-numeric or empty segment fails to parse
(raises `InvalidVersion` in the source, modelled as `none`).  Comparison pads
the shorter segment list with zeros and compares lexicographically, exactly
as `packaging` orders plain release versions (`"1.0" == "1.0.0"`,
`"10.0.0" > "9.0.0"`). -/

/-- Python's `str.split(sep)` for a single-character separator, on character
lists: `"a/b/" ↦ ["a","b",""]`, `"" ↦ [""]`. -/
def splitChar (sep : Char) : List Char → List (List Char)
  | [] => [[]]
  | c :: rest =>
    let r := splitChar sep rest
    if c = sep then [] :: r
    else
      match r with
      | [] => [[c]]
      | g :: gs => (c :: g) :: gs

/-- Python's `str.split(sep)` for a single-character separator. -/
def splitOnChar (sep : Char) (s : String) : List String :=
  (splitChar sep s.data).map (fun g => String.mk g)

/-- One dotted segment: non-empty, all digits, valued as a decimal numeral. -/
def parseSegment (s : String) : Option Nat :=
  if s.length ≠ 0 && s.data.all (fun c => c.isDigit) then
    some (s.data.foldl (fun n c => n * 10 + (c.toNat - 48)) 0)
  else none

/-- `packaging.version.parse`, release versions only: all dotted segments must
be numeric or the parse fails. -/
def parseVersion (s : String) : Option (List Nat) :=
  List.mapM parseSegment (splitOnChar '.' s)

/-- Does a segment list have any positive entry (is it above the all-zero
padding)? -/
def anyPos : List Nat → Bool
  | [] => false
  | b :: bs => 0 < b || anyPos bs

/-- Strict "less than" on parsed versions: lexicographic on segments, the
shorter list padded with zeros (so `[1] = [1,0]`, `[1] < [1,1]`,
`[10] > [9,9]`). -/
def verLtB : List Nat → List Nat → Bool
  | [], bs => anyPos bs
  | _ :: _, [] => false
  | a :: as, b :: bs =>
    if a < b then true else if b < a then false else verLtB as bs

/-- Sort key of a version string: its parsed segment list (sorting in the
source only ever reaches strings that parse, so the `[]` default of a failed
parse is never compared). -/
def verKey (s : String) : List Nat := (parseVersion s).getD []

/-- `version.parse a < version.parse b` on the underlying strings. -/
def verLtS (a b : String) : Bool := verLtB (verKey a) (verKey b)

/-! ## `sorted(versions, key=version.parse)`

Python's `sorted` is a stable sort by the key function.  We embed it as a
stable insertion sort over the strict key order `verLtS`: an element is
inserted after every already-placed element that is strictly below it, and in
front of the first element that is not, so elements with equal keys keep
their original relative order, exactly as `sorted` does. -/

/-- Insert `v` into an (ascending) list: skip the elements strictly below
`v`, place `v` in front of the rest. -/
def insertV (v : String) : List String → List String
  | [] => [v]
  | w :: ws => if verLtS w v then w :: insertV v ws else v :: w :: ws

/-- Stable sort by the parsed-version key (`sorted(·, key=version.parse)`). -/
def sortV : List String → List String
  | [] => []
  | v :: vs => insertV v (sortV vs)

/-- Ascending order by the version key: no later element is strictly below
an earlier one. -/
def VSorted (l : List String) : Prop :=
  l.Pairwise (fun a b => verLtS b a = false)

/-! ## Local Installation Registry (`get_installed_version`,
`get_previous_version`, src/app.py:67-100) -/

/-- One entry of the artifact's storage root listing: its name and whether
`os.path.isdir` holds for it (`download_zip` also leaves plain `<ver>.zip`
files next to the version directories). -/
structure DirEntry where
  name : String
  isDir : Bool
deriving DecidableEq

/-- The storage root `packages/math_module`: `none` when
`os.path.exists(base)` is false. -/
abbrev RootFs := Option (List DirEntry)

/-- The loop body shared by `get_installed_version` and
`get_previous_version`: keep `d` when it is a directory and
`version.parse(d)` does not raise. -/
def keepEntry (e : DirEntry) : Option String :=
  if e.isDir && (parseVersion e.name).isSome then some e.name else none

/-- The `versions` list accumulated by the registry loops. -/
def versionsOf (entries : List DirEntry) : List String :=
  entries.filterMap keepEntry

/-- `get_installed_version` (src/app.py:67-80): `None` when the root does not
exist, else `sorted(versions, key=version.parse)[-1] if versions else None`
(the `getLast?` of the sorted listing is `none` exactly on the empty one). -/
def get_installed_version (fs : RootFs) : Option String :=
  match fs with
  | none => none
  | some entries => (sortV (versionsOf entries)).getLast?

/-- `get_previous_version` (src/app.py:86-100): same enumeration, then
`versions[-2] if len(versions) >= 2 else None` (`[-2]` is the last element
of `dropLast`). -/
def get_previous_version (fs : RootFs) : Option String :=
  match fs with
  | none => none
  | some entries =>
    if 2 ≤ (sortV (versionsOf entries)).length then
      (sortV (versionsOf entries)).dropLast.getLast?
    else none

/-! ## Remote Catalog Client (`list_versions_online`, src/app.py:49-61) -/

/-- `p.split("/")[1]`: `none` models the `IndexError` when the listed path
has no second segment. -/
def splitSecond (pathStr : String) : Option String :=
  (splitOnChar '/' pathStr).get? 1

/-- `list_versions_online` (src/app.py:49-61).  `resp = none` models the
request or JSON decoding raising (network/store failure); the bare `except`
then yields `[]`.  Given a response, every listed path contributes its second
segment; an `IndexError` while splitting, or an `InvalidVersion` raised by
`version.parse` while `sorted` computes the keys, is caught by the same
`except`, emptying the whole result. -/
def list_versions_online (resp : Option (List String)) : List String :=
  match resp with
  | none => []
  | some paths =>
    match List.mapM splitSecond paths with
    | none => []
    | some segs =>
      if segs.all (fun s => (parseVersion s).isSome) then sortV segs else []

/-! ## Hot-Swap Loader (`force_reload` / `load_module`, src/app.py:20-43) -/

/-- `PACKAGE = "math_module"`. -/
def PACKAGE : String := "math_module"

/-- `LOCAL_STORE = "packages"`. -/
def LOCAL_STORE : String := "packages"

/-- `base = f"{LOCAL_STORE}/{PACKAGE}"`, the artifact's local storage root. -/
def base : String := LOCAL_STORE ++ "/" ++ PACKAGE

/-- Python's substring test `needle in hay` on character lists. -/
def listContains (needle : List Char) : List Char → Bool
  | [] => needle.isEmpty
  | c :: rest => needle.isPrefixOf (c :: rest) || listContains needle rest

/-- Python's `needle in hay` on strings. -/
def strContains (hay needle : String) : Bool :=
  listContains needle.data hay.data

theorem isPrefixOf_append_self : ∀ (l t : List Char),
    l.isPrefixOf (l ++ t) = true
  | [], _ => by simp [List.isPrefixOf]
  | c :: l, t => by
    simp [List.isPrefixOf, isPrefixOf_append_self l t]

theorem listContains_nil_left : ∀ (t : List Char), listContains [] t = true
  | [] => rfl
  | _ :: t => by simp [listContains, List.isPrefixOf]

theorem listContains_append_self : ∀ (l t : List Char),
    listContains l (l ++ t) = true
  | [], t => by simpa using listContains_nil_left t
  | c :: l, t => by
    simp only [List.cons_append, listContains]
    simp [isPrefixOf_append_self (c :: l) t]

/-! ## Order and sorting lemmas -/

theorem verLtB_nil_right : ∀ a, verLtB a [] = false
  | [] => rfl
  | _ :: _ => rfl

theorem verLtB_irrefl : ∀ a, verLtB a a = false
  | [] => rfl
  | a :: as => by
    simp only [verLtB, lt_irrefl, if_false]
    exact verLtB_irrefl as

/-- Nothing is strictly below an all-zero segment list. -/
theorem verLtB_of_anyPos_false : ∀ c, anyPos c = false → ∀ a, verLtB a c = false
  | [], _, a => verLtB_nil_right a
  | c :: cs, h, a => by
    simp only [anyPos, Bool.or_eq_false_iff] at h
    have hc0 : c = 0 := by
      rcases h with ⟨h1, _⟩
      simpa using h1
    subst hc0
    cases a with
    | nil => simp [verLtB, anyPos, h.2]
    | cons x xs =>
      simp only [verLtB, Nat.not_lt_zero, if_false]
      by_cases hx : 0 < x
      · simp [hx]
      · have hx0 : x = 0 := by omega
        subst hx0
        simp only [lt_irrefl, if_false]
        exact verLtB_of_anyPos_false cs h.2 xs

/-- Below an all-zero list means itself all-zero-dominated. -/
theorem anyPos_false_of_verLtB : ∀ b c, anyPos b = false →
    verLtB b c = false → anyPos c = false
  | [], c, _, h2 => h2
  | b :: bs, [], _, _ => rfl
  | b :: bs, c :: cs, h1, h2 => by
    simp only [anyPos, Bool.or_eq_false_iff] at h1
    have hb0 : b = 0 := by
      rcases h1 with ⟨h, _⟩
      simpa using h
    subst hb0
    simp only [verLtB] at h2
    by_cases hc : 0 < c
    · simp [hc] at h2
    · have hc0 : c = 0 := by omega
      subst hc0
      simp only [lt_irrefl, if_false] at h2
      simp only [anyPos, lt_irrefl, Bool.false_or]
      exact anyPos_false_of_verLtB bs cs h1.2 h2

theorem verLtB_asymm : ∀ a b, verLtB a b = true → verLtB b a = false
  | [], b, _ => verLtB_nil_right b
  | a :: as, [], h => by simp [verLtB] at h
  | a :: as, b :: bs, h => by
    simp only [verLtB] at h ⊢
    by_cases hab : a < b
    · have hba : ¬ b < a := Nat.lt_asymm hab
      simp [hab, hba]
    · by_cases hba : b < a
      · simp [hab, hba] at h
      · simp only [hab, hba, if_false] at h
        simp [hab, hba, verLtB_asymm as bs h]

/-- Transitivity of the reflexive order `¬ · < ·`: if `¬ a < b` and
`¬ b < c` then `¬ a < c`. -/
theorem verLtB_negTrans :
    ∀ a b c, verLtB a b = false → verLtB b c = false → verLtB a c = false
  | [], b, c, h1, h2 => anyPos_false_of_verLtB b c h1 h2
  | a :: as, b, [], _, _ => verLtB_nil_right _
  | a :: as, [], c :: cs, _, h2 =>
    verLtB_of_anyPos_false (c :: cs) h2 (a :: as)
  | a :: as, b :: bs, c :: cs, h1, h2 => by
    simp only [verLtB] at h1 h2 ⊢
    by_cases hab : a < b
    · simp [hab] at h1
    · by_cases hbc : b < c
      · simp [hbc] at h2
      · have hac : ¬ a < c := by omega
        by_cases hca : c < a
        · simp [hac, hca]
        · have hba : ¬ b < a := by omega
          have hcb : ¬ c < b := by omega
          simp only [hab, hba, if_false] at h1
          simp only [hbc, hcb, if_false] at h2
          simp only [hac, hca, if_false]
          exact verLtB_negTrans as bs cs h1 h2

theorem verLtS_irrefl (a : String) : verLtS a a = false := verLtB_irrefl _

theorem verLtS_asymm {a b : String} (h : verLtS a b = true) :
    verLtS b a = false := verLtB_asymm _ _ h

theorem verLtS_negTrans {a b c : String} (h1 : verLtS a b = false)
    (h2 : verLtS b c = false) : verLtS a c = false :=
  verLtB_negTrans _ _ _ h1 h2

theorem insertV_perm (v : String) (l : List String) :
    List.Perm (insertV v l) (v :: l) := by
  induction l with
  | nil => exact List.Perm.refl _
  | cons w ws ih =>
    simp only [insertV]
    by_cases h : verLtS w v
    · simp only [h, if_true]
      exact (ih.cons w).trans (List.Perm.swap v w ws)
    · simp [h]

theorem sortV_perm (l : List String) : List.Perm (sortV l) l := by
  induction l with
  | nil => exact List.Perm.refl _
  | cons v vs ih => exact (insertV_perm v (sortV vs)).trans (ih.cons v)

theorem sortV_length (l : List String) : (sortV l).length = l.length :=
  (sortV_perm l).length_eq

theorem sortV_mem {l : List String} {x : String} : x ∈ sortV l ↔ x ∈ l :=
  (sortV_perm l).mem_iff

theorem sortV_nodup {l : List String} (h : l.Nodup) : (sortV l).Nodup :=
  (sortV_perm l).symm.nodup h

theorem VSorted_insertV (v : String) {l : List String} (h : VSorted l) :
    VSorted (insertV v l) := by
  induction l with
  | nil => simp [insertV, VSorted]
  | cons w ws ih =>
    simp only [insertV]
    rcases List.pairwise_cons.mp h with ⟨hw, hws⟩
    by_cases hwv : verLtS w v
    · simp only [hwv, if_true]
      refine List.pairwise_cons.mpr ⟨?_, ih hws⟩
      intro u hu
      have hu' : u ∈ v :: ws := (insertV_perm v ws).mem_iff.mp hu
      rcases List.mem_cons.mp hu' with rfl | hu'
      · exact verLtS_asymm hwv
      · exact hw u hu'
    · simp only [hwv, if_false]
      refine List.pairwise_cons.mpr ⟨?_, h⟩
      intro u hu
      have hwvf : verLtS w v = false := by simpa using hwv
      rcases List.mem_cons.mp hu with hu | hu
      · subst hu; exact hwvf
      · exact verLtS_negTrans (hw u hu) hwvf

theorem sortV_sorted (l : List String) : VSorted (sortV l) := by
  induction l with
  | nil => exact List.Pairwise.nil
  | cons v vs ih => exact VSorted_insertV v ih

/-- If nothing in `l` is strictly below `v`, insertion puts `v` in front. -/
theorem insertV_front {v : String} {l : List String}
    (h : ∀ u ∈ l, verLtS u v = false) : insertV v l = v :: l := by
  cases l with
  | nil => rfl
  | cons w ws =>
    have hw : verLtS w v = false := h w (List.mem_cons_self w ws)
    simp [insertV, hw]

/-- Stability makes sorting commute with filtering: sorting a filtered list
is filtering the sorted list. -/
theorem insertV_filter (v : String) {l : List String} (p : String → Bool)
    (hs : VSorted l) (hp : p v = true) :
    insertV v (l.filter p) = (insertV v l).filter p := by
  induction l with
  | nil => simp [insertV, List.filter, hp]
  | cons w ws ih =>
    rcases List.pairwise_cons.mp hs with ⟨hw, hws⟩
    by_cases hwv : verLtS w v
    · by_cases hpw : p w
      · simp only [List.filter_cons, hpw, if_true, insertV, hwv, ih hws]
      · have hpw' : p w = false := by simpa using hpw
        simp only [List.filter_cons, hpw', insertV, hwv, if_true]
        simp only [Bool.false_eq_true, if_false]
        exact ih hws
    · by_cases hpw : p w
      · simp only [List.filter_cons, hpw, if_true, insertV, hwv, if_false]
        simp [List.filter_cons, hp, hpw]
      · simp only [List.filter_cons, hpw, insertV, hwv, if_false]
        have hfront : insertV v (ws.filter p) = v :: ws.filter p := by
          refine insertV_front ?_
          intro u hu
          have hu' : u ∈ ws := List.mem_of_mem_filter hu
          have hwvf : verLtS w v = false := by simpa using hwv
          exact verLtS_negTrans (hw u hu') hwvf
        simp [hfront, List.filter_cons, hp, hpw]

/-- Inserting an element the filter rejects leaves the filtered list
unchanged. -/
theorem filter_insertV_neg (v : String) (l : List String) (p : String → Bool)
    (hp : p v = false) : (insertV v l).filter p = l.filter p := by
  induction l with
  | nil => simp [insertV, List.filter, hp]
  | cons w ws ih =>
    simp only [insertV]
    by_cases hwv : verLtS w v
    · simp only [hwv, if_true, List.filter_cons, ih]
    · simp only [hwv, if_false, List.filter_cons, hp]
      simp [List.filter_cons, hp]

theorem sortV_filter (l : List String) (p : String → Bool) :
    sortV (l.filter p) = (sortV l).filter p := by
  induction l with
  | nil => rfl
  | cons v vs ih =>
    by_cases hp : p v
    · simp only [List.filter_cons, hp, if_true, sortV, ih]
      exact insertV_filter v p (sortV_sorted vs) hp
    · have hp' : p v = false := by simpa using hp
      simp only [List.filter_cons, hp', sortV]
      simp only [Bool.false_eq_true, if_false]
      rw [ih, filter_insertV_neg v (sortV vs) p hp']

theorem mem_of_getLast?' : ∀ {l : List String} {m : String},
    l.getLast? = some m → m ∈ l
  | [], m, h => by simp at h
  | [a], m, h => by
    simp only [List.getLast?_singleton, Option.some.injEq] at h
    simp [h]
  | a :: b :: t, m, h => by
    rw [List.getLast?_cons_cons] at h
    exact List.mem_cons_of_mem a (mem_of_getLast?' h)

/-- The last element of an ascending list is a maximum: no member is
strictly above it. -/
theorem sorted_getLast_max : ∀ {l : List String}, VSorted l →
    ∀ {m : String}, l.getLast? = some m → ∀ x ∈ l, verLtS m x = false
  | [], _, m, h => by simp at h
  | [a], _, m, h => by
    simp only [List.getLast?_singleton, Option.some.injEq] at h
    subst h
    intro x hx
    rcases List.mem_singleton.mp hx with rfl
    exact verLtS_irrefl _
  | a :: b :: t, hs, m, h => by
    rw [List.getLast?_cons_cons] at h
    rcases List.pairwise_cons.mp hs with ⟨ha, hs'⟩
    intro x hx
    rcases List.mem_cons.mp hx with rfl | hx
    · exact ha m (mem_of_getLast?' h)
    · exact sorted_getLast_max hs' h x hx

/-- On a duplicate-free list, filtering out the last element is `dropLast`. -/
theorem filter_ne_getLast : ∀ (l : List String), l.Nodup →
    ∀ {x : String}, l.getLast? = some x →
      l.filter (fun s => s != x) = l.dropLast
  | [], _, x, h => by simp at h
  | [a], _, x, h => by
    simp only [List.getLast?_singleton, Option.some.injEq] at h
    subst h
    simp [List.filter]
  | a :: b :: t, hnd, x, h => by
    rw [List.getLast?_cons_cons] at h
    have hnd' := (List.nodup_cons.mp hnd).2
    have hax : a ≠ x := by
      intro e
      exact (List.nodup_cons.mp hnd).1 (e ▸ mem_of_getLast?' h)
    have ih := filter_ne_getLast (b :: t) hnd' h
    have hcond : (a != x) = true := bne_iff_ne.mpr hax
    simp only [List.filter_cons, hcond, if_true, ih]
    rfl

/-- The interpreter state the loader mutates: `sys.modules` (an association
list from module name to the module object, a module represented by the
`__init__.py` path it was executed from) and `sys.path`. -/
structure PyState where
  modules : List (String × String)
  path : List String
deriving DecidableEq

/-- `m == PACKAGE or m.startswith(PACKAGE + ".")`: the module names the
unbind loop of `force_reload` deletes. -/
def isArtifactName (m : String) : Bool :=
  m == PACKAGE || (PACKAGE ++ ".").data.isPrefixOf m.data

/-- `force_reload` (src/app.py:20-26): delete every artifact module from
`sys.modules`, then keep only the `sys.path` entries not containing `base`. -/
def force_reload (s : PyState) : PyState :=
  { modules := s.modules.filter (fun e => !(isArtifactName e.1)),
    path := s.path.filter (fun p => !(strContains p base)) }

/-- `f"{LOCAL_STORE}/{PACKAGE}/{ver}"`, the directory registered on
`sys.path`. -/
def versionDir (ver : String) : String := base ++ "/" ++ ver

/-- `pkg_root = f"{LOCAL_STORE}/{PACKAGE}/{ver}/{PACKAGE}"`. -/
def pkg_root (ver : String) : String := versionDir ver ++ "/" ++ PACKAGE

/-- `module_path = os.path.join(pkg_root, "__init__.py")`. -/
def module_path (ver : String) : String := pkg_root ver ++ "/__init__.py"

/-- `load_module` (src/app.py:32-43): `force_reload()` first, then insert the
version's directory at the front of `sys.path`, then build and execute a
fresh module object from the version's `__init__.py` and return it.  Note
that `importlib.util.module_from_spec` + `spec.loader.exec_module` does not
register the new module in `sys.modules`: the module table of the result is
exactly the one `force_reload` produced. -/
def load_module (ver : String) (s : PyState) : PyState × String :=
  let s1 := force_reload s
  let s2 : PyState := { s1 with path := versionDir ver :: s1.path }
  (s2, module_path ver)

/-! ## Artifact Fetcher (`download_zip` / `extract_zip`,
src/app.py:106-132) -/

/-- `download_zip ver` (src/app.py:106-117) at the storage-root level:
creates the root if missing and (over)writes the plain file `<ver>.zip`
into it. -/
def download_zip (ver : String) (fs : RootFs) : RootFs :=
  some (⟨ver ++ ".zip", false⟩ ::
    (fs.getD []).filter (fun e => e.name != ver ++ ".zip"))

/-- The contents of one version's install directory, `none` when the
directory is absent. -/
abbrev DirContents := Option (List String)

/-- `zipfile.extractall` into a (possibly existing) directory: every archive
member is written (overwriting same-named files), files already present that
the archive does not mention survive. -/
def extractall (target : DirContents) (archiveFiles : List String) :
    List String :=
  archiveFiles ++ (target.getD []).filter (fun f => !(archiveFiles.contains f))

/-- `extract_zip` (src/app.py:123-132) at the level of the target
directory's file contents: if the target exists it is removed wholesale
(`shutil.rmtree`), then the archive is unpacked into the now-absent path. -/
def extract_zip (existing : DirContents) (archiveFiles : List String) :
    List String :=
  let target : DirContents := if existing.isSome then none else existing
  extractall target archiveFiles

/-- `extract_zip` at the storage-root level: the version's directory entry is
(re)created. -/
def extract_zip_entry (ver : String) (fs : RootFs) : RootFs :=
  some (⟨ver, true⟩ :: (fs.getD []).filter (fun e => e.name != ver))

/-! ## Lifecycle Controller (`check_update` and the update/rollback branches
of `index`, src/app.py:161-239) -/

/-- The JSON object `check_update` returns. -/
structure StatusResponse where
  installed : Option String
  latest : Option String
  previous : Option String
  update_available : Bool
  rollback_available : Bool
deriving DecidableEq

/-- `check_update` (src/app.py:161-197).  The `if not online:` branch is the
`getLast? = none` case; otherwise `latest = online[-1]` and the comparison
`version.parse(latest) > version.parse(installed)` decides
`update_available`.  (The route's outer `try/except` never fires in this
total model; it is the code's last-resort degradation to the same
all-`None`/`False` shape.) -/
def check_update (fs : RootFs) (resp : Option (List String)) :
    StatusResponse :=
  match (list_versions_online resp).getLast? with
  | none =>
    { installed := get_installed_version fs, latest := none, previous := none,
      update_available := false, rollback_available := false }
  | some latest =>
    { installed := get_installed_version fs, latest := some latest,
      previous := get_previous_version fs,
      update_available :=
        match get_installed_version fs with
        | none => true
        | some inst => verLtB (verKey inst) (verKey latest),
      rollback_available := (get_previous_version fs).isSome }

/-- How an `index` POST branch ends: a redirect to `/`, an uncaught
exception (the request crashes with a 500), or a structured error result
reported to the caller — the last is vocabulary from the design document;
no code path of `app.py` produces it. -/
inductive ReqOutcome where
  | redirected
  | crashed (err : String)
  | errorResult (msg : String)
deriving DecidableEq

/-- The `"update" in request.form` branch of `index` (src/app.py:224-229):
`latest = list_versions_online()[-1]` (an `IndexError` crash when the
catalog is empty), then `download_zip`, `extract_zip`, `load_module`,
`redirect("/")`.  Returns the storage root, the interpreter state, the
version passed to `load_module` (if any) and the response outcome. -/
def updateBranch (resp : Option (List String)) (fs : RootFs) (st : PyState) :
    RootFs × PyState × Option String × ReqOutcome :=
  match (list_versions_online resp).getLast? with
  | none => (fs, st, none, .crashed "IndexError")
  | some latest =>
    let fs1 := download_zip latest fs
    let fs2 := extract_zip_entry latest fs1
    let st' := (load_module latest st).1
    (fs2, st', some latest, .redirected)

/-- The `"rollback" in request.form` branch of `index` (src/app.py:231-239):
re-read installed and previous; when a previous version exists, delete the
installed version's directory and load the previous one; in either case the
response is a plain `redirect("/")`. -/
def rollbackBranch (fs : RootFs) (st : PyState) :
    RootFs × PyState × Option String × ReqOutcome :=
  match get_previous_version fs with
  | some previous =>
    (fs.map (fun entries =>
        entries.filter
          (fun e => e.name != (get_installed_version fs).getD "")),
      (load_module previous st).1, some previous, .redirected)
  | none => (fs, st, none, .redirected)

/-- A finite sequence of `load_module` calls (each call drops the returned
handle and keeps the interpreter state). -/
def runLoads (vers : List String) (s : PyState) : PyState :=
  vers.foldl (fun st v => (load_module v st).1) s

/-! ## Helper lemmas about the loader state -/

theorem filter_not_filter {α : Type} (p : α → Bool) :
    ∀ l : List α, (l.filter (fun a => !(p a))).filter p = []
  | [] => rfl
  | a :: l => by
    by_cases h : p a
    · simp [List.filter_cons, h, filter_not_filter p l]
    · simp [List.filter_cons, h, filter_not_filter p l]

theorem strContains_versionDir (ver : String) :
    strContains (versionDir ver) base = true := by
  have hdata : (versionDir ver).data = base.data ++ ("/" ++ ver).data := by
    simp [versionDir, String.data_append, List.append_assoc]
  simp only [strContains, hdata]
  exact listContains_append_self base.data ("/" ++ ver).data

theorem path_after_load (ver : String) (s : PyState) :
    ((load_module ver s).1).path.filter (fun p => strContains p base)
      = [versionDir ver] := by
  simp only [load_module, force_reload, List.filter_cons, strContains_versionDir,
    if_true, filter_not_filter]

/-- `sys.modules` lookups of artifact names fail on a table `force_reload`
has scrubbed. -/
theorem lookup_scrubbed_none (n : String) (hn : isArtifactName n = true) :
    ∀ l : List (String × String),
      (l.filter (fun e => !(isArtifactName e.1))).lookup n = none
  | [] => rfl
  | e :: l => by
    by_cases h : isArtifactName e.1
    · simp only [List.filter_cons, h, Bool.not_true, Bool.false_eq_true,
        if_false]
      exact lookup_scrubbed_none n hn l
    · have h' : isArtifactName e.1 = false := by simpa using h
      have hne : (n == e.1) = false := by
        rcases Bool.eq_false_iff.mp (by simpa using h) with _
        by_cases he : n = e.1
        · exact absurd (he ▸ hn) (by simp [h'])
        · simpa using he
      simp only [List.filter_cons, h', Bool.not_false, if_true, List.lookup,
        hne]
      exact lookup_scrubbed_none n hn l

theorem isArtifactName_PACKAGE : isArtifactName PACKAGE = true := by decide

/-! ## C1 -/

/-- C1 (confirmed): on every call to `load_module`, whatever the prior
interpreter state, the unbind step (`force_reload`) runs first: the state it
yields holds no module entry named `PACKAGE` or `PACKAGE.…` and no
`sys.path` entry containing the storage root; `load_module` is exactly that
state with the new version's directory pushed in front of `sys.path` (and a
fresh module object returned), so after any load the search-path entries
referencing the root are exactly the new version's directory and at most one
(in fact zero) module-table entries are bound under the artifact's name. -/
theorem load_unbinds_before_bind (s : PyState) (ver : String) :
    ((force_reload s).modules.filter (fun e => isArtifactName e.1) = [] ∧
      (force_reload s).path.filter (fun p => strContains p base) = []) ∧
    load_module ver s =
      ({ modules := (force_reload s).modules,
         path := versionDir ver :: (force_reload s).path }, module_path ver) ∧
    ((load_module ver s).1).path.filter (fun p => strContains p base)
      = [versionDir ver] ∧
    (((load_module ver s).1).modules.filter
        (fun e => isArtifactName e.1)).length ≤ 1 := by
  refine ⟨⟨?_, ?_⟩, rfl, path_after_load ver s, ?_⟩
  · exact filter_not_filter _ s.modules
  · exact filter_not_filter _ s.path
  · simp only [load_module, force_reload]
    rw [filter_not_filter _ s.modules]
    simp

/-! ## C9 -/

/-- C9 counterexample: starting from a state whose module table binds a
stale module under `"math_module"`, loading `"2.0.0"` leaves the module
table with no binding for the artifact's name at all — in particular the
freshly returned module instance is not bound under it, contradicting the
claim that every successful load binds the fresh instance in the process's
module namespace. -/
theorem load_does_not_bind_counterexample :
    (load_module "2.0.0" ⟨[("math_module", "oldmod")], []⟩).1.modules.lookup
        "math_module"
      ≠ some (load_module "2.0.0" ⟨[("math_module", "oldmod")], []⟩).2 ∧
    (load_module "2.0.0" ⟨[("math_module", "oldmod")], []⟩).1.modules.lookup
        "math_module" = none := by
  constructor
  · decide
  · decide

/-- C9 amended: a successful load returns the fresh module instance (built
from that version's entry point) to its caller and registers the version's
directory at the front of the search path, but it does not insert the
instance into `sys.modules`: afterwards the module table holds no binding
under the artifact's canonical name, so only the caller holding the returned
handle observes the new version. -/
theorem load_returns_handle_unbound (s : PyState) (ver : String) :
    (load_module ver s).2 = module_path ver ∧
    (load_module ver s).1.modules.lookup PACKAGE = none ∧
    (load_module ver s).1.path.head? = some (versionDir ver) := by
  refine ⟨rfl, ?_, rfl⟩
  simp only [load_module, force_reload]
  exact lookup_scrubbed_none PACKAGE isArtifactName_PACKAGE s.modules

/-! ## C10 -/

/-- C10 (confirmed): after every load in any finite sequence of
`load_module` calls, the interpreter search path contains exactly one entry
referencing the artifact's storage root — the directory of the version just
loaded — and it sits at the front; entries never accumulate across swaps. -/
theorem loads_never_accumulate (vers : List String) (s0 : PyState)
    (h : vers ≠ []) :
    (runLoads vers s0).path.filter (fun p => strContains p base)
        = [versionDir (vers.getLast h)] ∧
    (runLoads vers s0).path.head? = some (versionDir (vers.getLast h)) := by
  induction vers generalizing s0 with
  | nil => exact absurd rfl h
  | cons v vs ih =>
    cases vs with
    | nil =>
      refine ⟨path_after_load v s0, rfl⟩
    | cons w ws =>
      have hne : w :: ws ≠ [] := List.cons_ne_nil w ws
      have hstep : runLoads (v :: w :: ws) s0
          = runLoads (w :: ws) ((load_module v s0).1) := rfl
      rw [hstep, List.getLast_cons hne]
      exact ih ((load_module v s0).1) hne

/-! ## C2 -/

/-- C2 (code bug): when the Remote Catalog Client yields no versions, the
`update` branch of `index` evaluates `list_versions_online()[-1]` on an
empty list and the request dies with an uncaught `IndexError` — no
structured "nothing to update to" no-op error is produced, no download,
extraction or load happens, contradicting the documented propagation policy
that an empty catalog never surfaces past `update()` as a hard failure. -/
theorem update_empty_catalog_crashes (resp : Option (List String))
    (fs : RootFs) (st : PyState) (h : list_versions_online resp = []) :
    updateBranch resp fs st = (fs, st, none, .crashed "IndexError") := by
  simp [updateBranch, h]

/-- C2 witness: the crash evaluated at the failing input (remote listing
raised, bare `except` returned `[]`, one version installed locally). -/
theorem update_empty_catalog_crashes_witness :
    updateBranch none (some [⟨"1.0.0", true⟩]) ⟨[], []⟩
      = (some [⟨"1.0.0", true⟩], ⟨[], []⟩, none, .crashed "IndexError") :=
  update_empty_catalog_crashes none (some [⟨"1.0.0", true⟩]) ⟨[], []⟩ rfl

/-! ## C4 -/

/-- C4 counterexample: with a single installed version (no previous), the
rollback branch answers with a plain `redirect("/")` — the same response a
successful rollback gives — and not with any structured error result, so
the claim that it "fails with a distinct NothingToRollback error … and
reports the structured failure reason to the caller" is false on this
state.  (The no-op half of the claim does hold: storage and interpreter
state are untouched and nothing is loaded.) -/
theorem rollback_no_error_counterexample :
    rollbackBranch (some [⟨"1.0.0", true⟩]) ⟨[], []⟩
      = (some [⟨"1.0.0", true⟩], ⟨[], []⟩, none, .redirected) ∧
    ReqOutcome.redirected ≠ ReqOutcome.errorResult "nothing to roll back to" := by
  constructor
  · decide
  · decide

/-- C4 amended: with fewer than two version-parsing directories (so no
previous version), the rollback branch is a silent no-op: it deletes
nothing, loads nothing, leaves every state component unchanged, and returns
a plain redirect carrying no error indication whatsoever. -/
theorem rollback_without_previous_noop (fs : RootFs) (st : PyState)
    (h : ∀ entries, fs = some entries → (versionsOf entries).length < 2) :
    rollbackBranch fs st = (fs, st, none, .redirected) := by
  have hprev : get_previous_version fs = none := by
    cases fs with
    | none => rfl
    | some entries =>
      have hlen : (sortV (versionsOf entries)).length < 2 := by
        rw [sortV_length]
        exact h entries rfl
      simp [get_previous_version, Nat.not_le_of_lt hlen]
  simp [rollbackBranch, hprev]

/-- C4 witness. -/
theorem rollback_without_previous_noop_witness :
    rollbackBranch (some [⟨"1.0.0", true⟩, ⟨"notaversion", true⟩]) ⟨[], []⟩
      = (some [⟨"1.0.0", true⟩, ⟨"notaversion", true⟩], ⟨[], []⟩, none,
          .redirected) :=
  rollback_without_previous_noop _ _ (by intro entries he; cases he; decide)

/-! ## C8 -/

/-- C8 (confirmed): `extract_zip` removes any existing directory at the
version's install path wholesale before unpacking, so the result contains
exactly the archive's contents whatever was there before — a retried
extraction never merges stale files from a previous attempt with fresh
archive contents. -/
theorem extract_clears_target (existing : DirContents)
    (archiveFiles : List String) :
    extract_zip existing archiveFiles = archiveFiles ∧
    (∀ stale, stale ∈ existing.getD [] → stale ∉ archiveFiles →
      stale ∉ extract_zip existing archiveFiles) := by
  have heq : extract_zip existing archiveFiles = archiveFiles := by
    cases existing with
    | none => simp [extract_zip, extractall]
    | some l => simp [extract_zip, extractall]
  refine ⟨heq, fun stale _ hst => ?_⟩
  rw [heq]
  exact hst

/-- C8 witness: a stale file of a previous attempt does not survive. -/
theorem extract_clears_target_witness :
    extract_zip (some ["stale.py"]) ["fresh.py"] = ["fresh.py"] ∧
    "stale.py" ∉ extract_zip (some ["stale.py"]) ["fresh.py"] :=
  ⟨(extract_clears_target (some ["stale.py"]) ["fresh.py"]).1,
    (extract_clears_target (some ["stale.py"]) ["fresh.py"]).2 "stale.py"
      (by decide) (by decide)⟩

theorem keepEntry_name {e : DirEntry} {s : String} (h : keepEntry e = some s) :
    s = e.name := by
  unfold keepEntry at h
  split at h
  · injection h with h
    exact h.symm
  · cases h

theorem versionsOf_cons_some {e : DirEntry} {s : String}
    (h : keepEntry e = some s) (rest : List DirEntry) :
    versionsOf (e :: rest) = s :: versionsOf rest := by
  unfold versionsOf
  rw [List.filterMap_cons, h]

theorem versionsOf_cons_none {e : DirEntry} (h : keepEntry e = none)
    (rest : List DirEntry) :
    versionsOf (e :: rest) = versionsOf rest := by
  unfold versionsOf
  rw [List.filterMap_cons, h]

/-- Deleting the directory named `x` removes exactly the version string `x`
from the registry's enumeration. -/
theorem versionsOf_filter_name (entries : List DirEntry) (x : String) :
    versionsOf (entries.filter (fun e => e.name != x))
      = (versionsOf entries).filter (fun s => s != x) := by
  induction entries with
  | nil => rfl
  | cons e rest ih =>
    by_cases hname : (e.name != x) = true
    · rw [List.filter_cons, if_pos hname]
      cases hk : keepEntry e with
      | none => rw [versionsOf_cons_none hk, versionsOf_cons_none hk, ih]
      | some s =>
        have hs := keepEntry_name hk
        rw [versionsOf_cons_some hk, versionsOf_cons_some hk,
          List.filter_cons, if_pos (by rw [hs]; exact hname), ih]
    · have hname' : (e.name != x) = false := by simpa using hname
      rw [List.filter_cons]
      rw [hname']
      simp only [Bool.false_eq_true, if_false]
      cases hk : keepEntry e with
      | none => rw [versionsOf_cons_none hk, ih]
      | some s =>
        have hs := keepEntry_name hk
        rw [versionsOf_cons_some hk, List.filter_cons,
          if_neg (by rw [hs]; simp [hname']), ih]

/-- The registry's enumeration is a sublist of the root's entry names. -/
theorem versionsOf_sublist (entries : List DirEntry) :
    List.Sublist (versionsOf entries) (entries.map (fun e => e.name)) := by
  induction entries with
  | nil => simp [versionsOf]
  | cons e rest ih =>
    cases hk : keepEntry e with
    | none =>
      rw [versionsOf_cons_none hk, List.map_cons]
      exact ih.cons _
    | some s =>
      rw [versionsOf_cons_some hk, List.map_cons, keepEntry_name hk]
      exact ih.cons₂ _

/-! ## C6 -/

/-- C6 (confirmed): `get_installed_version` is `none` on an absent root and
on a root with no version-parsing directory entries, and otherwise returns a
comparator-maximum of the parsing directory names; `get_previous_version` is
`none` whenever fewer than two qualifying entries exist, and with at least
two qualifying entries (directory names duplicate-free, as in any real
listing) it returns the second-maximum under the same rule: a qualifying
entry distinct from the installed maximum that no qualifying entry other
than that maximum strictly exceeds; on the root `{"1.0.0", "2.0.0", "x"}`
the two return `"2.0.0"` and `"1.0.0"`, and on
`{"1.0.0", "3.0.0", "2.0.0", "x"}` they return `"3.0.0"` and `"2.0.0"`. -/
theorem registry_spec :
    (get_installed_version none = none ∧ get_previous_version none = none) ∧
    (∀ entries, versionsOf entries = [] →
      get_installed_version (some entries) = none) ∧
    (∀ entries, (versionsOf entries).length < 2 →
      get_previous_version (some entries) = none) ∧
    (∀ entries v, get_installed_version (some entries) = some v →
      v ∈ versionsOf entries ∧ ∀ w ∈ versionsOf entries, verLtS v w = false) ∧
    (∀ entries, (entries.map (fun e => e.name)).Nodup →
      2 ≤ (versionsOf entries).length →
      ∃ inst prev,
        get_installed_version (some entries) = some inst ∧
        get_previous_version (some entries) = some prev ∧
        prev ∈ versionsOf entries ∧ prev ≠ inst ∧
        ∀ w ∈ versionsOf entries, w ≠ inst → verLtS prev w = false) ∧
    (get_installed_version
        (some [⟨"1.0.0", true⟩, ⟨"2.0.0", true⟩, ⟨"x", true⟩])
      = some "2.0.0" ∧
      get_previous_version
        (some [⟨"1.0.0", true⟩, ⟨"2.0.0", true⟩, ⟨"x", true⟩])
      = some "1.0.0") ∧
    (get_installed_version
        (some [⟨"1.0.0", true⟩, ⟨"3.0.0", true⟩, ⟨"2.0.0", true⟩, ⟨"x", true⟩])
      = some "3.0.0" ∧
      get_previous_version
        (some [⟨"1.0.0", true⟩, ⟨"3.0.0", true⟩, ⟨"2.0.0", true⟩, ⟨"x", true⟩])
      = some "2.0.0") := by
  refine ⟨⟨rfl, rfl⟩, ?_, ?_, ?_, ?_, ⟨by decide, by decide⟩,
    ⟨by decide, by decide⟩⟩
  · intro entries h
    simp [get_installed_version, h, sortV]
  · intro entries h
    have hlen : (sortV (versionsOf entries)).length < 2 := by
      rw [sortV_length]; exact h
    simp [get_previous_version, Nat.not_le_of_lt hlen]
  · intro entries v hv
    have hv' : (sortV (versionsOf entries)).getLast? = some v := hv
    refine ⟨sortV_mem.mp (mem_of_getLast?' hv'), ?_⟩
    intro w hw
    exact sorted_getLast_max (sortV_sorted _) hv' w (sortV_mem.mpr hw)
  · intro entries hnd h2
    have hlen : 2 ≤ (sortV (versionsOf entries)).length := by
      rw [sortV_length]
      exact h2
    have hSne : sortV (versionsOf entries) ≠ [] := by
      intro he
      rw [he] at hlen
      simp at hlen
    have hdroplen : (sortV (versionsOf entries)).dropLast.length
        = (sortV (versionsOf entries)).length - 1 :=
      List.length_dropLast _
    have hdropne : (sortV (versionsOf entries)).dropLast ≠ [] := by
      intro he
      rw [he] at hdroplen
      simp at hdroplen
      omega
    have hvnodup : (versionsOf entries).Nodup :=
      List.Nodup.sublist (versionsOf_sublist entries) hnd
    have hSnodup : (sortV (versionsOf entries)).Nodup := sortV_nodup hvnodup
    have hlast : (sortV (versionsOf entries)).getLast?
        = some ((sortV (versionsOf entries)).getLast hSne) :=
      List.getLast?_eq_getLast _ hSne
    have hfilter := filter_ne_getLast _ hSnodup hlast
    have hprevLast : ((sortV (versionsOf entries)).dropLast).getLast?
        = some (((sortV (versionsOf entries)).dropLast).getLast hdropne) :=
      List.getLast?_eq_getLast _ hdropne
    have hmemfil : ((sortV (versionsOf entries)).dropLast).getLast hdropne
        ∈ (sortV (versionsOf entries)).filter
          (fun s => s != (sortV (versionsOf entries)).getLast hSne) := by
      rw [hfilter]
      exact mem_of_getLast?' hprevLast
    refine ⟨(sortV (versionsOf entries)).getLast hSne,
      ((sortV (versionsOf entries)).dropLast).getLast hdropne,
      List.getLast?_eq_getLast _ hSne, ?_, ?_, ?_, ?_⟩
    · show (if 2 ≤ (sortV (versionsOf entries)).length then
          (sortV (versionsOf entries)).dropLast.getLast? else none) = _
      rw [if_pos hlen]
      exact hprevLast
    · exact sortV_mem.mp (List.mem_of_mem_filter hmemfil)
    · have hbne := (List.mem_filter.mp hmemfil).2
      intro he
      rw [he] at hbne
      simp at hbne
    · intro w hw hwne
      have hwmem : w ∈ (sortV (versionsOf entries)).filter
          (fun s => s != (sortV (versionsOf entries)).getLast hSne) :=
        List.mem_filter.mpr ⟨sortV_mem.mpr hw, by simpa using hwne⟩
      have hsorted : VSorted ((sortV (versionsOf entries)).filter
          (fun s => s != (sortV (versionsOf entries)).getLast hSne)) :=
        List.Pairwise.sublist (List.filter_sublist _) (sortV_sorted _)
      have hlast' : ((sortV (versionsOf entries)).filter
            (fun s => s != (sortV (versionsOf entries)).getLast hSne)).getLast?
          = some (((sortV (versionsOf entries)).dropLast).getLast hdropne) := by
        rw [hfilter]
        exact hprevLast
      exact sorted_getLast_max hsorted hlast' w hwmem

/-- C6 witness: the absent cases, the maximum characterization, and the
general second-maximum statement applied to a three-version root whose
second-maximum `"2.0.0"` is neither the minimum nor the maximum. -/
theorem registry_spec_witness :
    get_installed_version (some [⟨"z", true⟩]) = none ∧
    get_previous_version (some [⟨"1.0.0", true⟩]) = none ∧
    ("1.0.0" ∈ versionsOf [⟨"1.0.0", true⟩] ∧
      ∀ w ∈ versionsOf [⟨"1.0.0", true⟩], verLtS "1.0.0" w = false) ∧
    (∃ inst prev,
      get_installed_version
          (some [⟨"1.0.0", true⟩, ⟨"3.0.0", true⟩, ⟨"2.0.0", true⟩])
        = some inst ∧
      get_previous_version
          (some [⟨"1.0.0", true⟩, ⟨"3.0.0", true⟩, ⟨"2.0.0", true⟩])
        = some prev ∧
      prev ∈ versionsOf [⟨"1.0.0", true⟩, ⟨"3.0.0", true⟩, ⟨"2.0.0", true⟩] ∧
      prev ≠ inst ∧
      ∀ w ∈ versionsOf [⟨"1.0.0", true⟩, ⟨"3.0.0", true⟩, ⟨"2.0.0", true⟩],
        w ≠ inst → verLtS prev w = false) :=
  ⟨registry_spec.2.1 [⟨"z", true⟩] (by decide),
    registry_spec.2.2.1 [⟨"1.0.0", true⟩] (by decide),
    registry_spec.2.2.2.1 [⟨"1.0.0", true⟩] "1.0.0" (by decide),
    registry_spec.2.2.2.2.1
      [⟨"1.0.0", true⟩, ⟨"3.0.0", true⟩, ⟨"2.0.0", true⟩]
      (by decide) (by decide)⟩

/-! ## C7 -/

/-- C7 counterexample: a listing holding one parsing prefix
(`math_module/1.0.0/`) and one non-parsing prefix (`math_module/x/`) comes
back entirely empty — the parsing version `"1.0.0"` is *not* returned, so
non-parsing prefixes are not skipped individually as the claim states: the
`version.parse` failure inside `sorted` is caught by the bare `except`,
which discards the whole listing. -/
theorem listVersions_mixed_counterexample :
    list_versions_online (some ["math_module/1.0.0/", "math_module/x/"])
      = [] ∧
    "1.0.0" ∉
      list_versions_online (some ["math_module/1.0.0/", "math_module/x/"]) := by
  constructor
  · decide
  · decide

/-- Unfolding equation for a delivered response. -/
theorem list_versions_online_some (paths : List String) :
    list_versions_online (some paths) =
      match List.mapM splitSecond paths with
      | none => []
      | some segs =>
        if segs.all (fun s => (parseVersion s).isSome) then sortV segs
        else [] := rfl

/-- The catalog listing is always in ascending comparator order (trivially
so when it is empty). -/
theorem listVersions_sorted (resp : Option (List String)) :
    VSorted (list_versions_online resp) := by
  cases resp with
  | none => exact List.Pairwise.nil
  | some paths =>
    rw [list_versions_online_some]
    cases List.mapM splitSecond paths with
    | none => exact List.Pairwise.nil
    | some segs =>
      by_cases hall : segs.all (fun s => (parseVersion s).isSome) = true
      · simp only [hall, if_true]
        exact sortV_sorted segs
      · have hall' : segs.all (fun s => (parseVersion s).isSome) = false := by
          simpa using hall
        simp only [hall', Bool.false_eq_true, if_false]
        exact List.Pairwise.nil

/-- C7 amended: the listing never throws past its boundary, but it is
all-or-nothing rather than per-prefix: any failure — a raised request, a
path with no second segment, or any single segment that does not parse as a
version — empties the whole result; only when every segment parses are the
versions returned, and then all of them, in ascending comparator order. -/
theorem listVersions_all_or_nothing :
    list_versions_online none = [] ∧
    (∀ paths, List.mapM splitSecond paths = none →
      list_versions_online (some paths) = []) ∧
    (∀ paths segs s, List.mapM splitSecond paths = some segs →
      s ∈ segs → parseVersion s = none →
      list_versions_online (some paths) = []) ∧
    (∀ paths segs, List.mapM splitSecond paths = some segs →
      (∀ s ∈ segs, (parseVersion s).isSome = true) →
      List.Perm (list_versions_online (some paths)) segs ∧
        VSorted (list_versions_online (some paths))) := by
  refine ⟨rfl, ?_, ?_, ?_⟩
  · intro paths hm
    rw [list_versions_online_some, hm]
  · intro paths segs s hm hs hparse
    have hall : segs.all (fun s => (parseVersion s).isSome) = false := by
      cases hb : segs.all (fun s => (parseVersion s).isSome) with
      | false => rfl
      | true =>
        have := List.all_eq_true.mp hb s hs
        rw [hparse] at this
        simp at this
    rw [list_versions_online_some, hm]
    simp [hall]
  · intro paths segs hm hall
    have htrue : segs.all (fun s => (parseVersion s).isSome) = true :=
      List.all_eq_true.mpr hall
    have hres : list_versions_online (some paths) = sortV segs := by
      rw [list_versions_online_some, hm]
      simp [htrue]
    rw [hres]
    exact ⟨sortV_perm segs, sortV_sorted segs⟩

/-- C7 witness: a path with no version segment empties the listing; a fully
parsing listing is returned whole and ascending. -/
theorem listVersions_all_or_nothing_witness :
    list_versions_online (some ["math_module"]) = [] ∧
    (List.Perm
        (list_versions_online
          (some ["math_module/2.0.0/", "math_module/1.0.0/"]))
        ["2.0.0", "1.0.0"] ∧
      VSorted
        (list_versions_online
          (some ["math_module/2.0.0/", "math_module/1.0.0/"]))) :=
  ⟨listVersions_all_or_nothing.2.1 ["math_module"] (by decide),
    listVersions_all_or_nothing.2.2.2
      ["math_module/2.0.0/", "math_module/1.0.0/"] ["2.0.0", "1.0.0"]
      (by decide) (by decide)⟩

/-! ## C3 -/

/-- C3 (confirmed): from a duplicate-free storage root with at least two
version-parsing directories, the rollback branch determines
installed = maximum and previous = second-maximum, deletes the installed
version's directory, loads the previous version, and answers with a
redirect; on the resulting root the registry reports the former previous
version as installed, and the formerly installed version is gone from the
local installation set. -/
theorem rollback_swaps (entries : List DirEntry) (st : PyState)
    (hnd : (entries.map (fun e => e.name)).Nodup)
    (h2 : 2 ≤ (versionsOf entries).length) :
    ∃ inst prev,
      get_installed_version (some entries) = some inst ∧
      get_previous_version (some entries) = some prev ∧
      rollbackBranch (some entries) st =
        (some (entries.filter (fun e => e.name != inst)),
          (load_module prev st).1, some prev, .redirected) ∧
      get_installed_version
          (some (entries.filter (fun e => e.name != inst))) = some prev ∧
      inst ∉ versionsOf (entries.filter (fun e => e.name != inst)) := by
  have hlen : 2 ≤ (sortV (versionsOf entries)).length := by
    rw [sortV_length]
    exact h2
  have hSne : sortV (versionsOf entries) ≠ [] := by
    intro he
    rw [he] at hlen
    simp at hlen
  have hdroplen : (sortV (versionsOf entries)).dropLast.length
      = (sortV (versionsOf entries)).length - 1 :=
    List.length_dropLast _
  have hdropne : (sortV (versionsOf entries)).dropLast ≠ [] := by
    intro he
    rw [he] at hdroplen
    simp at hdroplen
    omega
  refine ⟨(sortV (versionsOf entries)).getLast hSne,
    ((sortV (versionsOf entries)).dropLast).getLast hdropne,
    ?_, ?_, ?_, ?_, ?_⟩
  · exact List.getLast?_eq_getLast _ hSne
  · show (if 2 ≤ (sortV (versionsOf entries)).length then
        (sortV (versionsOf entries)).dropLast.getLast? else none) = _
    rw [if_pos hlen]
    exact List.getLast?_eq_getLast _ hdropne
  · have hpreveq : get_previous_version (some entries)
        = some (((sortV (versionsOf entries)).dropLast).getLast hdropne) := by
      show (if 2 ≤ (sortV (versionsOf entries)).length then
          (sortV (versionsOf entries)).dropLast.getLast? else none) = _
      rw [if_pos hlen]
      exact List.getLast?_eq_getLast _ hdropne
    have hinsteq : get_installed_version (some entries)
        = some ((sortV (versionsOf entries)).getLast hSne) :=
      List.getLast?_eq_getLast _ hSne
    unfold rollbackBranch
    rw [hpreveq, hinsteq]
    rfl
  · have hvnodup : (versionsOf entries).Nodup :=
      List.Nodup.sublist (versionsOf_sublist entries) hnd
    have hSnodup : (sortV (versionsOf entries)).Nodup := sortV_nodup hvnodup
    have hlast : (sortV (versionsOf entries)).getLast?
        = some ((sortV (versionsOf entries)).getLast hSne) :=
      List.getLast?_eq_getLast _ hSne
    show (sortV (versionsOf (entries.filter
        (fun e => e.name != (sortV (versionsOf entries)).getLast hSne)))).getLast?
      = _
    rw [versionsOf_filter_name, sortV_filter,
      filter_ne_getLast _ hSnodup hlast]
    exact List.getLast?_eq_getLast _ hdropne
  · rw [versionsOf_filter_name]
    intro hmem
    have := (List.mem_filter.mp hmem).2
    simp at this

/-- C3 witness: rolling back from installed `"3.0.0"` with previous
`"2.0.0"`. -/
theorem rollback_swaps_witness :
    ∃ inst prev,
      get_installed_version (some [⟨"2.0.0", true⟩, ⟨"3.0.0", true⟩])
        = some inst ∧
      get_previous_version (some [⟨"2.0.0", true⟩, ⟨"3.0.0", true⟩])
        = some prev ∧
      rollbackBranch (some [⟨"2.0.0", true⟩, ⟨"3.0.0", true⟩]) ⟨[], []⟩ =
        (some (([⟨"2.0.0", true⟩, ⟨"3.0.0", true⟩] : List DirEntry).filter
            (fun e => e.name != inst)),
          (load_module prev ⟨[], []⟩).1, some prev, .redirected) ∧
      get_installed_version
          (some (([⟨"2.0.0", true⟩, ⟨"3.0.0", true⟩] : List DirEntry).filter
            (fun e => e.name != inst))) = some prev ∧
      inst ∉ versionsOf
          (([⟨"2.0.0", true⟩, ⟨"3.0.0", true⟩] : List DirEntry).filter
            (fun e => e.name != inst)) :=
  rollback_swaps [⟨"2.0.0", true⟩, ⟨"3.0.0", true⟩] ⟨[], []⟩ (by decide)
    (by decide)

/-! ## C5 -/

/-- C5 (confirmed): `check_update` never propagates a failure shape to the
caller — for every local state and every remote result it returns the full
record; on an empty catalog every availability field degrades to "nothing
available" (while still reporting the installed version); on a non-empty
catalog the reported `latest` is the comparator-maximum of the catalog,
`update_available` holds exactly when no version is installed or the remote
latest is strictly above the installed one, and `rollback_available` holds
exactly when a previous local version exists. -/
theorem status_fields_spec (fs : RootFs) (resp : Option (List String)) :
    (list_versions_online resp = [] →
      check_update fs resp =
        { installed := get_installed_version fs, latest := none,
          previous := none, update_available := false,
          rollback_available := false }) ∧
    (∀ latest, (list_versions_online resp).getLast? = some latest →
      (latest ∈ list_versions_online resp ∧
        ∀ v ∈ list_versions_online resp, verLtS latest v = false) ∧
      ((check_update fs resp).update_available = true ↔
        (get_installed_version fs = none ∨
          ∃ inst, get_installed_version fs = some inst ∧
            verLtS inst latest = true)) ∧
      (check_update fs resp).rollback_available
        = (get_previous_version fs).isSome ∧
      (check_update fs resp).installed = get_installed_version fs ∧
      (check_update fs resp).latest = some latest ∧
      (check_update fs resp).previous = get_previous_version fs) := by
  constructor
  · intro h
    unfold check_update
    rw [h]
    rfl
  · intro latest hl
    have hcu : check_update fs resp =
        { installed := get_installed_version fs, latest := some latest,
          previous := get_previous_version fs,
          update_available :=
            match get_installed_version fs with
            | none => true
            | some inst => verLtB (verKey inst) (verKey latest),
          rollback_available := (get_previous_version fs).isSome } := by
      unfold check_update
      rw [hl]
    refine ⟨⟨mem_of_getLast?' hl,
      fun v hv => sorted_getLast_max (listVersions_sorted resp) hl v hv⟩,
      ?_, by rw [hcu], by rw [hcu], by rw [hcu], by rw [hcu]⟩
    rw [hcu]
    cases hi : get_installed_version fs with
    | none => simp
    | some inst => simp [verLtS]

/-- C5 witness: concrete states exercising both branches of the theorem. -/
theorem status_fields_spec_witness :
    check_update (some [⟨"1.0.0", true⟩]) none =
      { installed := some "1.0.0", latest := none, previous := none,
        update_available := false, rollback_available := false } ∧
    (check_update (some [⟨"1.0.0", true⟩, ⟨"2.0.0", true⟩])
        (some ["math_module/3.0.0/"])).update_available = true := by
  constructor
  · exact (status_fields_spec (some [⟨"1.0.0", true⟩]) none).1 rfl
  · exact ((status_fields_spec (some [⟨"1.0.0", true⟩, ⟨"2.0.0", true⟩])
        (some ["math_module/3.0.0/"])).2 "3.0.0" (by decide)).2.1.mpr
      (Or.inr ⟨"2.0.0", by decide, by decide⟩)

/-- C10 witness. -/
theorem loads_never_accumulate_witness :
    (runLoads ["1.0.0", "2.0.0"] ⟨[], ["/usr/lib"]⟩).path.filter
        (fun p => strContains p base)
      = [versionDir (["1.0.0", "2.0.0"].getLast (by decide))] ∧
    (runLoads ["1.0.0", "2.0.0"] ⟨[], ["/usr/lib"]⟩).path.head?
      = some (versionDir (["1.0.0", "2.0.0"].getLast (by decide))) :=
  loads_never_accumulate ["1.0.0", "2.0.0"] ⟨[], ["/usr/lib"]⟩ (by decide)

end KraftUpdateHub
